import Mathlib

/-!
Verification of the ordering/rendering core of the newspaper PDF generator
(`app.py`).  The Python functions are shallowly embedded as executable Lean
definitions:

* `PAGE_RE`-based page-number extraction (`re.search` / `re.sub` with the
  pattern `page\s*no\.?\s*(\d+)`, `re.IGNORECASE`) is embedded as a
  deterministic matcher over `List Char`.  The pattern has no ambiguity that
  requires backtracking: after the literal `page`, a maximal run of
  whitespace must be followed by the literal `no` (a shorter run would end
  at a whitespace character, which cannot start `no`); after `no`, if the
  optional `.` is present but the continuation fails, the alternative
  without the `.` also fails (`.` is neither whitespace nor a digit); the
  trailing `\d+` is greedy and nothing follows it.  Hence the single-pass
  matcher below computes exactly the Python match.
* `str.lower`, `\s` and `\d` are modelled on ASCII (the repository's
  priority keywords and the spec's examples are ASCII).
* Python `sorted`/`list.sort` with a key function is a stable sort by the
  key order; it is embedded as `List.mergeSort` with the reflexive closure
  of the strict lexicographic key order.
* `scale_image` arithmetic (Python floats) is modelled exactly over `ℚ`;
  `int` truncation of a nonnegative value is `Nat.floor`.
* `generate_pdf` is embedded with decoding made explicit: an input page
  carries `decode : Option (Nat × Nat)`, `none` modelling a decode failure
  (the `except` branch that logs and skips), `some` the decoded image's
  dimensions.  The `ValueError('No images processed')` raised when nothing
  survives decoding is `GenError.emptyBatch`.  The label-band geometry of
  `add_label` depends on runtime font metrics and is not modelled; the
  label text attached to a page is.
-/

namespace NewspaperPdf

/-- ASCII whitespace, the ASCII part of Python's regex class `\s`. -/
def isPySpace (c : Char) : Bool :=
  c = ' ' || c = '\t' || c = '\n' || c = '\r' || c = '\x0b' || c = '\x0c'

/-- ASCII digit, the ASCII part of Python's regex class `\d`. -/
def isPyDigit (c : Char) : Bool :=
  '0' ≤ c && c ≤ '9'

/-- ASCII lowercasing of one character, modelling `str.lower` pointwise. -/
def lowerL (s : List Char) : List Char :=
  s.map Char.toLower

/-- Value of a digit string, modelling `int(m.group(1))` (digits only). -/
def digitsVal (ds : List Char) : Nat :=
  ds.foldl (fun a c => a * 10 + (c.toNat - '0'.toNat)) 0

/-- Match a literal character list at the head; return the rest on success. -/
def matchLit : List Char → List Char → Option (List Char)
  | [], s => some s
  | _ :: _, [] => none
  | c :: cs, d :: ds => if d = c then matchLit cs ds else none

/-- Attempt to match `PAGE_RE` (`page\s*no\.?\s*(\d+)`, `app.py` line 22)
at the start of `s` (already lowercased).  On success, return the suffix
after the match together with the captured integer. -/
def tryMatchAt (s : List Char) : Option (List Char × Nat) :=
  match matchLit ['p', 'a', 'g', 'e'] s with
  | none => none
  | some s1 =>
    let s2 := s1.dropWhile isPySpace
    match matchLit ['n', 'o'] s2 with
    | none => none
    | some s3 =>
      let s4 := match s3 with
        | '.' :: r => r
        | r => r
      let s5 := s4.dropWhile isPySpace
      let digits := s5.takeWhile isPyDigit
      if digits.isEmpty then none
      else some (s5.drop digits.length, digitsVal digits)

/-- Leftmost `PAGE_RE` match: `PAGE_RE.search(name)` returning the captured
integer (`app.py` lines 71-72). -/
def searchNum : List Char → Option Nat
  | [] => none
  | c :: rest =>
    match tryMatchAt (c :: rest) with
    | some x => some x.2
    | none => searchNum rest

/-- Fuelled scan for `PAGE_RE.sub('', name)`: replace every non-overlapping
leftmost match by the empty string, continuing after each match.  Each step
consumes at least one character (a match contains at least `pageno` plus a
digit), so fuel `s.length` always suffices; the fuel-exhausted arm is
unreachable for the wrapper below. -/
def subAllFuel : Nat → List Char → List Char
  | _, [] => []
  | 0, s => s
  | fuel + 1, c :: rest =>
    match tryMatchAt (c :: rest) with
    | some x => subAllFuel fuel x.1
    | none => c :: subAllFuel fuel rest

/-- `PAGE_RE.sub('', name)` (`app.py` line 73). -/
def subAll (s : List Char) : List Char :=
  subAllFuel s.length s

/-- Characters stripped by `.strip('- _')`. -/
def isStripChar (c : Char) : Bool :=
  c = '-' || c = ' ' || c = '_'

/-- Python `str.strip('- _')`: drop leading and trailing hyphens, spaces
and underscores. -/
def stripEnds (s : List Char) : List Char :=
  ((s.dropWhile isStripChar).reverse.dropWhile isStripChar).reverse

/-- Does `pat` occur at the head of `s`? -/
def startsWithL : List Char → List Char → Bool
  | [], _ => true
  | _ :: _, [] => false
  | c :: cs, d :: ds => c == d && startsWithL cs ds

/-- Python substring containment `pat in s`. -/
def containsSub (pat : List Char) : List Char → Bool
  | [] => pat.isEmpty
  | c :: rest => startsWithL pat (c :: rest) || containsSub pat rest

/-- The keyword loop of `build_sort_key_with_map` (`app.py` lines 66-70):
`pr_rank` starts at `len(priority_l) + 1` and becomes the index of the
first keyword occurring in the name.  Here each miss adds one and the empty
tail contributes one, so a name matching no keyword gets `length + 1` and a
name whose first match is keyword `i` gets `i`. -/
def bucketAux (nm : List Char) : List (List Char) → Nat
  | [] => 1
  | kw :: rest => if containsSub kw nm then 0 else bucketAux nm rest + 1

/-- Priority bucket of a display name (`pr_rank` in the Python key). -/
def bucketOf (priority : List String) (name : String) : Nat :=
  bucketAux (lowerL name.toList) (priority.map (fun p => lowerL p.toList))

/-- Extracted page number: captured integer of the first `PAGE_RE` match in
the lowercased display name, `0` when there is no match. -/
def pageNumOf (name : String) : Nat :=
  (searchNum (lowerL name.toList)).getD 0

/-- Base name: lowercased display name with every `PAGE_RE` match removed,
then stripped of leading/trailing `-`, space, `_`. -/
def baseOf (name : String) : List Char :=
  stripEnds (subAll (lowerL name.toList))

/-- Type of the sort key tuple `(pr_rank, base, page_num, idx)` built by
`build_sort_key_with_map` (`app.py` line 74), with the lexicographic tuple
order Python uses to compare key tuples (strings compare lexicographically
by code point, as in Python). -/
abbrev SortKeyT : Type :=
  Lex (Nat × Lex (List Char × Lex (Nat × Nat)))

/-- Sort key of an indexed page `(idx, display name)`. -/
def sortKey (priority : List String) (p : Nat × String) : SortKeyT :=
  toLex (bucketOf priority p.2, toLex (baseOf p.2, toLex (pageNumOf p.2, p.1)))

/-- DEFAULT_PRIORITY (`app.py` lines 23-29). -/
def DEFAULT_PRIORITY : List String :=
  ["dainik bhaskar", "city bhaskar", "rajasthan patrika", "first india", "sach bedhadak"]

/-- The ranking pass of `generate_pdf` (`app.py` lines 109-112):
`indexed = list(enumerate(names)); indexed.sort(key=sort_key)`.  Python's
sort is a stable sort by the key order; because the key tuple contains the
input index, the keys of distinct positions are distinct and the result is
the unique permutation strictly sorted by the key order, which the stable
`List.mergeSort` by the reflexive key order computes. -/
def rank (priority : List String) (names : List String) : List (Nat × String) :=
  (names.enum).mergeSort (fun a b => decide (sortKey priority a ≤ sortKey priority b))

/-- `scale_image` (`app.py` lines 77-88), arithmetic over `ℚ`; `int` of a
nonnegative value is `Nat.floor`. -/
def scale_image (w h : Nat) (max_w max_h : Option Nat) : Nat × Nat :=
  if max_w = none ∧ max_h = none then (w, h)
  else
    let s0 : ℚ := 1
    let s1 : ℚ :=
      match max_w with
      | some mw => if mw < w then min s0 ((mw : ℚ) / (w : ℚ)) else s0
      | none => s0
    let s2 : ℚ :=
      match max_h with
      | some mh => if mh < h then min s1 ((mh : ℚ) / (h : ℚ)) else s1
      | none => s1
    if s2 < 1 then (⌊(w : ℚ) * s2⌋₊, ⌊(h : ℚ) * s2⌋₊) else (w, h)

/-- Modelled from the spec: the uniform scale factor, "the minimum of
(max_width / width) and (max_height / height) for whichever bounds are set
and exceeded", taken as `1` (no scaling) when no bound is exceeded. -/
def specScaleFactor (w h : Nat) (max_w max_h : Option Nat) : ℚ :=
  let rw : List ℚ :=
    match max_w with
    | some mw => if mw < w then [(mw : ℚ) / (w : ℚ)] else []
    | none => []
  let rh : List ℚ :=
    match max_h with
    | some mh => if mh < h then [(mh : ℚ) / (h : ℚ)] else []
    | none => []
  (rw ++ rh).foldr min 1

/-- The boundary normalisation of the label override (`app.py` lines
153-155): an empty-string form value becomes `None`. -/
def normalizeAllLabel : Option String → Option String
  | some s => if s = "" then none else some s
  | none => none

/-- Label-text choice in `generate_pdf` (`app.py` lines 119-125): the
override if present, else the page's own display name. -/
def chooseLabel : Option String → String → String
  | some l, _ => l
  | none, d => d

/-- An uploaded page as `generate_pdf` sees it: display name (the original
filename stem kept in `filename_map`) and decode outcome, `none` modelling
an `Image.open` failure, `some (w, h)` the decoded dimensions. -/
structure UPage where
  name : String
  decode : Option (Nat × Nat)
deriving DecidableEq, Repr

/-- The one failure `generate_pdf` raises itself:
`ValueError('No images processed')` (`app.py` lines 130-131). -/
inductive GenError where
  | emptyBatch
deriving DecidableEq, Repr

/-- A finished page of the output document: scaled dimensions plus the
label text drawn on it (`none` when labelling is suppressed). -/
structure PdfPage where
  width : Nat
  height : Nat
  label : Option String
deriving DecidableEq, Repr

/-- Per-page processing inside the loop of `generate_pdf` (`app.py` lines
115-126), after a successful decode: scale, then label unless `no_label`. -/
def processPage (all_label : Option String) (max_w max_h : Option Nat)
    (no_label : Bool) (nm : String) (dims : Nat × Nat) : PdfPage :=
  let d := scale_image dims.1 dims.2 max_w max_h
  if no_label then ⟨d.1, d.2, none⟩
  else ⟨d.1, d.2, some (chooseLabel all_label nm)⟩

/-- The sort of `generate_pdf` (`app.py` lines 109-112), over full page
records. -/
def orderedOf (priority : List String) (pages : List UPage) : List (Nat × UPage) :=
  (pages.enum).mergeSort
    (fun a b => decide (sortKey priority (a.1, a.2.name) ≤ sortKey priority (b.1, b.2.name)))

/-- The processing loop of `generate_pdf` (`app.py` lines 114-128): decode
each page in ranked order, skipping decode failures. -/
def processedOf (priority : List String) (pages : List UPage)
    (all_label : Option String) (max_w max_h : Option Nat) (no_label : Bool) :
    List PdfPage :=
  (orderedOf priority pages).filterMap
    (fun ip => (ip.2.decode).map (processPage all_label max_w max_h no_label ip.2.name))

/-- `generate_pdf` (`app.py` lines 105-135): sort by the key, process the
decodable pages in ranked order, fail with `emptyBatch` when none survives,
otherwise return the assembled page list and the processed count. -/
def generate_pdf (priority : List String) (pages : List UPage)
    (all_label : Option String) (max_w max_h : Option Nat) (no_label : Bool) :
    Except GenError (List PdfPage × Nat) :=
  let processed := processedOf priority pages all_label max_w max_h no_label
  if processed.isEmpty then Except.error GenError.emptyBatch
  else Except.ok (processed, processed.length)

/-! Order-theoretic facts about the key comparator used by the sort. -/

theorem sortKey_le_total (P : List String) (a b : Nat × String) :
    (decide (sortKey P a ≤ sortKey P b) || decide (sortKey P b ≤ sortKey P a)) = true := by
  rcases le_total (sortKey P a) (sortKey P b) with h | h <;> simp [h]

theorem sortKey_le_trans (P : List String) (a b c : Nat × String)
    (h1 : decide (sortKey P a ≤ sortKey P b) = true)
    (h2 : decide (sortKey P b ≤ sortKey P c) = true) :
    decide (sortKey P a ≤ sortKey P c) = true := by
  simp only [decide_eq_true_eq] at h1 h2 ⊢
  exact le_trans h1 h2

theorem sortKey_eq_fst {P : List String} {a b : Nat × String}
    (h : sortKey P a = sortKey P b) : a.1 = b.1 := by
  simp only [sortKey, toLex_inj, Prod.mk.injEq] at h
  exact h.2.2.2

theorem enum_eq_enumFrom {α : Type} (l : List α) : l.enum = l.enumFrom 0 :=
  rfl

theorem pairwise_fst_lt_enumFrom {α : Type} (l : List α) :
    ∀ n : Nat, (l.enumFrom n).Pairwise (fun a b => a.1 < b.1) := by
  induction l with
  | nil => intro n; simp
  | cons x xs ih =>
    intro n
    rw [List.enumFrom_cons]
    refine List.Pairwise.cons ?_ (ih (n + 1))
    rintro ⟨i, a⟩ hmem
    exact lt_of_lt_of_le (Nat.lt_succ_self n) (List.mem_enumFrom hmem).1

/-- The ranked list is a permutation of the enumerated input. -/
theorem rank_perm (P : List String) (ns : List String) : (rank P ns).Perm ns.enum :=
  List.mergeSort_perm _ _

/-- The ranked list is weakly sorted by the key order. -/
theorem rank_pairwise_le (P : List String) (ns : List String) :
    (rank P ns).Pairwise (fun a b => sortKey P a ≤ sortKey P b) := by
  have h := List.sorted_mergeSort (sortKey_le_trans P) (sortKey_le_total P) (ns.enum)
  exact h.imp (by intro a b hab; simpa using hab)

/-- The ranked list is strictly sorted by the key order: the keys of
distinct input positions differ in their index component. -/
theorem rank_pairwise_lt (P : List String) (ns : List String) :
    (rank P ns).Pairwise (fun a b => sortKey P a < sortKey P b) := by
  have h0 : (ns.enum).Pairwise (fun a b : Nat × String => a.1 ≠ b.1) := by
    rw [enum_eq_enumFrom]
    exact (pairwise_fst_lt_enumFrom ns 0).imp (fun h => Nat.ne_of_lt h)
  have hne : (rank P ns).Pairwise (fun a b : Nat × String => a.1 ≠ b.1) :=
    (List.Perm.pairwise_iff (fun h => h.symm) (rank_perm P ns)).mpr h0
  exact ((rank_pairwise_le P ns).and hne).imp
    (fun hab => lt_of_le_of_ne hab.1 (fun he => hab.2 (sortKey_eq_fst he)))

/-- A list strictly sorted by the key order is determined by its members:
two strictly sorted permutations of each other are equal. -/
theorem rank_eq_of_sorted {P : List String} {l1 l2 : List (Nat × String)}
    (hp : l1.Perm l2)
    (h1 : l1.Pairwise (fun a b => sortKey P a < sortKey P b))
    (h2 : l2.Pairwise (fun a b => sortKey P a < sortKey P b)) :
    l1 = l2 := by
  haveI : IsAntisymm (Nat × String) (fun a b => sortKey P a < sortKey P b ∨ a = b) := by
    constructor
    intro a b hab hba
    rcases hab with h | h
    · rcases hba with h' | h'
      · exact absurd h' (lt_asymm h)
      · exact h'.symm
    · exact h
  have s1 : List.Sorted (fun a b => sortKey P a < sortKey P b ∨ a = b) l1 := h1.imp Or.inl
  have s2 : List.Sorted (fun a b => sortKey P a < sortKey P b ∨ a = b) l2 := h2.imp Or.inl
  exact List.eq_of_perm_of_sorted hp s1 s2

/-- Weakening a key comparison to re-assigned indices: if the first three
key components compare weakly and the new indices increase strictly, the
re-indexed keys still compare weakly. -/
theorem sortKey_le_shift (P : List String) (m n : String) {i j i2 j2 : Nat}
    (h : sortKey P (i, m) ≤ sortKey P (j, n)) (hij : i2 < j2) :
    sortKey P (i2, m) ≤ sortKey P (j2, n) := by
  simp only [sortKey, Prod.Lex.le_iff, Prod.Lex.lt_iff] at h ⊢
  rcases h with h | ⟨hb, h⟩
  · exact Or.inl h
  · refine Or.inr ⟨hb, ?_⟩
    rcases h with h | ⟨hs, h⟩
    · exact Or.inl h
    · refine Or.inr ⟨hs, ?_⟩
      rcases h with h | ⟨hp, _⟩
      · exact Or.inl h
      · exact Or.inr ⟨hp, Nat.le_of_lt hij⟩

theorem enumFrom_map_pair {α β : Type} (f : α → β) (l : List α) :
    ∀ n : Nat, (l.map f).enumFrom n = (l.enumFrom n).map (fun p => (p.1, f p.2)) := by
  induction l with
  | nil => intro n; rfl
  | cons x xs ih => intro n; simp [List.enumFrom_cons, ih]

theorem pairwise_enumFrom_of_pairwise {α : Type} {R : α → α → Prop} {l : List α}
    (h : l.Pairwise R) (n : Nat) :
    (l.enumFrom n).Pairwise (fun a b => a.1 < b.1 ∧ R a.2 b.2) := by
  have hmap : (l.enumFrom n).map Prod.snd = l := List.enumFrom_map_snd n l
  have h2 : (l.enumFrom n).Pairwise (fun a b => R a.2 b.2) := by
    apply List.pairwise_map.mp
    rw [hmap]
    exact h
  exact (pairwise_fst_lt_enumFrom l n).and h2

theorem exists_mem_enumFrom {α : Type} {a : α} :
    ∀ {l : List α} (n : Nat), a ∈ l → ∃ i, (i, a) ∈ l.enumFrom n := by
  intro l
  induction l with
  | nil => intro n h; cases h
  | cons x xs ih =>
    intro n h
    rcases List.mem_cons.mp h with rfl | h2
    · exact ⟨n, by simp [List.enumFrom_cons]⟩
    · obtain ⟨i, hi⟩ := ih (n + 1) h2
      exact ⟨i, by simp [List.enumFrom_cons, hi]⟩

theorem snd_mem_of_mem_enumFrom {α : Type} {ip : Nat × α} :
    ∀ {l : List α} {n : Nat}, ip ∈ l.enumFrom n → ip.2 ∈ l := by
  intro l
  induction l with
  | nil => intro n h; cases h
  | cons x xs ih =>
    intro n h
    rw [List.enumFrom_cons] at h
    rcases List.mem_cons.mp h with h1 | h2
    · subst h1; exact List.mem_cons_self _ _
    · exact List.mem_cons_of_mem _ (ih h2)

/-! Facts about the processing loop of `generate_pdf`. -/

theorem processedOf_eq_nil_iff (P : List String) (pages : List UPage)
    (al : Option String) (mw mh : Option Nat) (nl : Bool) :
    processedOf P pages al mw mh nl = [] ↔ ∀ p ∈ pages, p.decode = none := by
  unfold processedOf orderedOf
  rw [List.filterMap_eq_nil_iff]
  constructor
  · intro h p hp
    obtain ⟨i, hi⟩ := exists_mem_enumFrom 0 hp
    have h2 := h (i, p) (List.mem_mergeSort.mpr (by rw [enum_eq_enumFrom]; exact hi))
    simpa [Option.map_eq_none'] using h2
  · intro h ip hip
    have hm : ip ∈ pages.enum := List.mem_mergeSort.mp hip
    have hmem : ip.2 ∈ pages := by
      rw [enum_eq_enumFrom] at hm
      exact snd_mem_of_mem_enumFrom hm
    simp [Option.map_eq_none', h _ hmem]

theorem length_filterMap_decode (al : Option String) (mw mh : Option Nat) (nl : Bool) :
    ∀ (l : List UPage) (n : Nat),
      (List.filterMap
        (fun ip : Nat × UPage => (ip.2.decode).map (processPage al mw mh nl ip.2.name))
        (l.enumFrom n)).length
      = l.countP (fun p => p.decode.isSome) := by
  intro l
  induction l with
  | nil => intro n; rfl
  | cons x xs ih =>
    intro n
    rw [List.enumFrom_cons, List.filterMap_cons]
    cases hx : x.decode with
    | none => simp [hx, ih, List.countP_cons, Option.isSome]
    | some d => simp [hx, ih, List.countP_cons, Option.isSome]

theorem processedOf_length (P : List String) (pages : List UPage)
    (al : Option String) (mw mh : Option Nat) (nl : Bool) :
    (processedOf P pages al mw mh nl).length
      = pages.countP (fun p => p.decode.isSome) := by
  unfold processedOf orderedOf
  have hperm := (List.mergeSort_perm (pages.enum)
    (fun a b => decide (sortKey P (a.1, a.2.name) ≤ sortKey P (b.1, b.2.name)))).filterMap
    (fun ip : Nat × UPage => (ip.2.decode).map (processPage al mw mh nl ip.2.name))
  rw [hperm.length_eq, enum_eq_enumFrom]
  exact length_filterMap_decode al mw mh nl pages 0

theorem generate_pdf_eq_error_iff (P : List String) (pages : List UPage)
    (al : Option String) (mw mh : Option Nat) (nl : Bool) :
    generate_pdf P pages al mw mh nl = Except.error GenError.emptyBatch ↔
      ∀ p ∈ pages, p.decode = none := by
  rw [← processedOf_eq_nil_iff P pages al mw mh nl]
  unfold generate_pdf
  by_cases hE : processedOf P pages al mw mh nl = []
  · rw [if_pos (List.isEmpty_iff.mpr hE)]
    simp [hE]
  · rw [if_neg (fun hc => hE (List.isEmpty_iff.mp hc))]
    constructor
    · intro h; exact absurd h (by simp)
    · intro h; exact (hE h).elim

theorem generate_pdf_ok_count (P : List String) (pages : List UPage)
    (al : Option String) (mw mh : Option Nat) (nl : Bool)
    (out : List PdfPage × Nat)
    (h : generate_pdf P pages al mw mh nl = Except.ok out) :
    out.2 = pages.countP (fun p => p.decode.isSome) := by
  unfold generate_pdf at h
  by_cases hE : (processedOf P pages al mw mh nl).isEmpty
  · rw [if_pos hE] at h
    exact absurd h (by simp)
  · rw [if_neg hE] at h
    injection h with h2
    subst h2
    exact processedOf_length P pages al mw mh nl

/-! Facts about `scale_image`. -/

theorem foldr_min_le_one (l : List ℚ) : l.foldr min 1 ≤ 1 := by
  induction l with
  | nil => exact le_refl 1
  | cons x xs ih => exact le_trans (min_le_right x _) ih

theorem specScaleFactor_le_one (w h : Nat) (mw mh : Option Nat) :
    specScaleFactor w h mw mh ≤ 1 :=
  foldr_min_le_one _

/-- The scale actually applied by `scale_image` is the spec's factor: the
minimum of the ratios of the exceeded bounds. -/
theorem scale_image_eq (w h : Nat) (mw mh : Option Nat) (hne : ¬(mw = none ∧ mh = none)) :
    scale_image w h mw mh =
      if specScaleFactor w h mw mh < 1
      then (⌊(w : ℚ) * specScaleFactor w h mw mh⌋₊, ⌊(h : ℚ) * specScaleFactor w h mw mh⌋₊)
      else (w, h) := by
  rw [scale_image, if_neg hne]
  unfold specScaleFactor
  cases mw with
  | none =>
    cases mh with
    | none => exact absurd ⟨rfl, rfl⟩ hne
    | some b =>
      by_cases hb : b < h
      · simp [hb, min_comm]
      · simp [hb]
  | some a =>
    cases mh with
    | none =>
      by_cases ha : a < w
      · simp [ha, min_comm]
      · simp [ha]
    | some b =>
      by_cases ha : a < w <;> by_cases hb : b < h
      · simp [ha, hb, min_comm, min_assoc, min_left_comm]
      · simp [ha, hb, min_comm]
      · simp [ha, hb, min_comm]
      · simp [ha, hb]

theorem scale_image_le (w h : Nat) (mw mh : Option Nat) :
    (scale_image w h mw mh).1 ≤ w ∧ (scale_image w h mw mh).2 ≤ h := by
  by_cases hne : mw = none ∧ mh = none
  · rw [scale_image, if_pos hne]
    exact ⟨le_refl w, le_refl h⟩
  · rw [scale_image_eq w h mw mh hne]
    by_cases hs : specScaleFactor w h mw mh < 1
    · rw [if_pos hs]
      constructor
      · calc ⌊(w : ℚ) * specScaleFactor w h mw mh⌋₊
            ≤ ⌊((w : Nat) : ℚ)⌋₊ := by
              apply Nat.floor_le_floor
              calc (w : ℚ) * specScaleFactor w h mw mh
                  ≤ (w : ℚ) * 1 :=
                    mul_le_mul_of_nonneg_left (specScaleFactor_le_one w h mw mh)
                      (Nat.cast_nonneg w)
                _ = (w : ℚ) := mul_one _
          _ = w := Nat.floor_natCast w
      · calc ⌊(h : ℚ) * specScaleFactor w h mw mh⌋₊
            ≤ ⌊((h : Nat) : ℚ)⌋₊ := by
              apply Nat.floor_le_floor
              calc (h : ℚ) * specScaleFactor w h mw mh
                  ≤ (h : ℚ) * 1 :=
                    mul_le_mul_of_nonneg_left (specScaleFactor_le_one w h mw mh)
                      (Nat.cast_nonneg h)
                _ = (h : ℚ) := mul_one _
          _ = h := Nat.floor_natCast h
    · rw [if_neg hs]
      exact ⟨le_refl w, le_refl h⟩

/-! Facts about the `PAGE_RE` matcher on symbolic digit strings. -/

theorem isPySpace_eq_false_of_isPyDigit {c : Char} (h : isPyDigit c = true) :
    isPySpace c = false := by
  cases hsp : isPySpace c with
  | false => rfl
  | true =>
    exfalso
    unfold isPySpace at hsp
    simp only [Bool.or_eq_true, decide_eq_true_eq] at hsp
    rcases hsp with ((((h1 | h1) | h1) | h1) | h1) | h1 <;>
      (subst h1; exact absurd h (by decide))

theorem dropWhile_isPySpace_digits {ds : List Char}
    (hd : ∀ c ∈ ds, isPyDigit c = true) : ds.dropWhile isPySpace = ds := by
  cases ds with
  | nil => rfl
  | cons d tl =>
    have h1 : isPySpace d = false :=
      isPySpace_eq_false_of_isPyDigit (hd d (List.mem_cons_self d tl))
    simp [List.dropWhile_cons, h1]

theorem takeWhile_isPyDigit_all {ds : List Char}
    (hd : ∀ c ∈ ds, isPyDigit c = true) : ds.takeWhile isPyDigit = ds := by
  induction ds with
  | nil => rfl
  | cons d tl ih =>
    have h1 := hd d (List.mem_cons_self d tl)
    simp [List.takeWhile_cons, h1, ih (fun c hc => hd c (List.mem_cons_of_mem _ hc))]

/-- The matcher accepts `page no. ` followed by any nonempty digit string
and captures its value. -/
theorem tryMatchAt_page_no_dot (ds : List Char) (hne : ds ≠ [])
    (hd : ∀ c ∈ ds, isPyDigit c = true) :
    tryMatchAt ('p' :: 'a' :: 'g' :: 'e' :: ' ' :: 'n' :: 'o' :: '.' :: ' ' :: ds)
      = some (ds.drop ds.length, digitsVal ds) := by
  have hempty : ds.isEmpty = false := by
    cases ds with
    | nil => exact absurd rfl hne
    | cons d tl => rfl
  simp only [tryMatchAt, matchLit, if_pos, List.dropWhile_cons,
    dropWhile_isPySpace_digits hd, takeWhile_isPyDigit_all hd, hempty,
    isPySpace, isPyDigit]
  simp [dropWhile_isPySpace_digits hd, takeWhile_isPyDigit_all hd, hempty]

theorem matchLit_length : ∀ (lit s r : List Char),
    matchLit lit s = some r → r.length + lit.length = s.length := by
  intro lit
  induction lit with
  | nil =>
    intro s r h
    simp only [matchLit, Option.some.injEq] at h
    subst h
    simp
  | cons c cs ih =>
    intro s r h
    cases s with
    | nil => simp [matchLit] at h
    | cons d ds =>
      simp only [matchLit] at h
      by_cases hd : d = c
      · rw [if_pos hd] at h
        have := ih ds r h
        simp only [List.length_cons]
        omega
      · rw [if_neg hd] at h
        exact absurd h (by simp)

/-- A successful match consumes at least one character (in fact at least
seven), so the remainder is strictly shorter. -/
theorem tryMatchAt_some_length : ∀ {s : List Char} {x : List Char × Nat},
    tryMatchAt s = some x → x.1.length < s.length := by
  intro s x h
  simp only [tryMatchAt] at h
  cases h1 : matchLit ['p', 'a', 'g', 'e'] s with
  | none => simp [h1] at h
  | some s1 =>
    simp only [h1] at h
    cases h2 : matchLit ['n', 'o'] (s1.dropWhile isPySpace) with
    | none => simp [h2] at h
    | some s3 =>
      simp only [h2] at h
      have hb1 := matchLit_length ['p', 'a', 'g', 'e'] s s1 h1
      have hb2 : (s1.dropWhile isPySpace).length ≤ s1.length :=
        (List.dropWhile_sublist isPySpace).length_le
      have hb3 := matchLit_length ['n', 'o'] (s1.dropWhile isPySpace) s3 h2
      have hb4 : (match s3 with | '.' :: r => r | r => r).length ≤ s3.length := by
        split
        · simp
        · exact le_refl _
      have hb5 : ((match s3 with | '.' :: r => r | r => r).dropWhile
          isPySpace).length ≤ (match s3 with | '.' :: r => r | r => r).length :=
        (List.dropWhile_sublist isPySpace).length_le
      cases hemp : ((match s3 with | '.' :: r => r | r => r).dropWhile
          isPySpace).takeWhile isPyDigit with
      | nil => rw [hemp] at h; simp at h
      | cons d0 dtl =>
        rw [hemp] at h
        have hb6 : (d0 :: dtl).length ≤ ((match s3 with | '.' :: r => r | r => r).dropWhile
            isPySpace).length := by
          rw [← hemp]
          exact (List.takeWhile_sublist isPyDigit).length_le
        simp only [List.isEmpty_cons, Bool.false_eq_true, if_false,
          Option.some.injEq] at h
        have hx : x.1.length = ((match s3 with | '.' :: r => r | r => r).dropWhile
            isPySpace).length - (d0 :: dtl).length := by
          rw [← h]
          exact List.length_drop _ _
        simp only [List.length_cons] at hb6 hx
        simp only [List.length_cons] at hb1 hb3
        omega

/-- The fuelled scan is independent of the fuel as soon as the fuel covers
the input length. -/
theorem subAllFuel_congr : ∀ (f1 f2 : Nat) (s : List Char),
    s.length ≤ f1 → s.length ≤ f2 → subAllFuel f1 s = subAllFuel f2 s := by
  intro f1
  induction f1 with
  | zero =>
    intro f2 s h1 h2
    have hs : s = [] := by
      cases s with
      | nil => rfl
      | cons c rest => simp at h1
    subst hs
    cases f2 <;> rfl
  | succ g ih =>
    intro f2 s h1 h2
    cases s with
    | nil => cases f2 <;> rfl
    | cons c rest =>
      cases f2 with
      | zero => simp at h2
      | succ g2 =>
        simp only [subAllFuel]
        cases hm : tryMatchAt (c :: rest) with
        | some x =>
          have hlen := tryMatchAt_some_length hm
          simp only [List.length_cons] at hlen h1 h2
          exact ih g2 x.1 (by omega) (by omega)
        | none =>
          simp only [List.length_cons] at h1 h2
          rw [ih g2 rest (by omega) (by omega)]

/-- When the scan is at a match, the removal deletes it and keeps removing
in the remainder: every non-overlapping match is removed, not only the
first. -/
theorem subAll_cons_of_match {c : Char} {rest rem : List Char} {n : Nat}
    (h : tryMatchAt (c :: rest) = some (rem, n)) :
    subAll (c :: rest) = subAll rem := by
  have hlen := tryMatchAt_some_length h
  simp only [List.length_cons] at hlen
  unfold subAll
  have hstep : subAllFuel (c :: rest).length (c :: rest) = subAllFuel rest.length rem := by
    simp only [List.length_cons, subAllFuel, h]
  rw [hstep]
  exact subAllFuel_congr rest.length rem.length rem (by omega) (le_refl _)

/-- When the scan is not at a match, the head character is kept and the
scan continues. -/
theorem subAll_cons_of_no_match {c : Char} {rest : List Char}
    (h : tryMatchAt (c :: rest) = none) :
    subAll (c :: rest) = c :: subAll rest := by
  unfold subAll
  have hstep : subAllFuel (c :: rest).length (c :: rest) = c :: subAllFuel rest.length rest := by
    simp only [List.length_cons, subAllFuel, h]
  rw [hstep]

/-! Facts about the priority-bucket computation. -/

theorem bucketAux_all_miss {nm : List Char} :
    ∀ {kws : List (List Char)}, (∀ kw ∈ kws, containsSub kw nm = false) →
      bucketAux nm kws = kws.length + 1 := by
  intro kws
  induction kws with
  | nil => intro h; rfl
  | cons k tl ih =>
    intro h
    have hk := h k (List.mem_cons_self k tl)
    simp [bucketAux, hk, ih (fun kw hkw => h kw (List.mem_cons_of_mem _ hkw))]

theorem bucketAux_hit_le {nm : List Char} :
    ∀ {kws : List (List Char)}, (∃ kw ∈ kws, containsSub kw nm = true) →
      bucketAux nm kws ≤ kws.length := by
  intro kws
  induction kws with
  | nil => rintro ⟨kw, hkw, _⟩; cases hkw
  | cons k tl ih =>
    rintro ⟨kw, hkw, hc⟩
    by_cases hk : containsSub k nm = true
    · simp [bucketAux, hk]
    · have hmem : kw ∈ tl := by
        rcases List.mem_cons.mp hkw with rfl | h2
        · exact absurd hc hk
        · exact h2
      have hle := ih ⟨kw, hmem, hc⟩
      simp only [bucketAux, if_neg hk, List.length_cons]
      omega

theorem bucketOf_no_match (P : List String) (n : String)
    (hn : ∀ kw ∈ P, containsSub (lowerL kw.toList) (lowerL n.toList) = false) :
    bucketOf P n = P.length + 1 := by
  unfold bucketOf
  have h2 : ∀ kw2 ∈ P.map (fun p => lowerL p.toList),
      containsSub kw2 (lowerL n.toList) = false := by
    intro kw2 hkw2
    obtain ⟨kw, hkw, rfl⟩ := List.mem_map.mp hkw2
    exact hn kw hkw
  rw [bucketAux_all_miss h2, List.length_map]

theorem bucketOf_match_le (P : List String) (m : String)
    (hm : ∃ kw ∈ P, containsSub (lowerL kw.toList) (lowerL m.toList) = true) :
    bucketOf P m ≤ P.length := by
  unfold bucketOf
  obtain ⟨kw, hkw, hc⟩ := hm
  calc bucketAux (lowerL m.toList) (P.map (fun p => lowerL p.toList))
      ≤ (P.map (fun p => lowerL p.toList)).length :=
        bucketAux_hit_le ⟨lowerL kw.toList, List.mem_map_of_mem _ hkw, hc⟩
    _ = P.length := List.length_map _ _

/-- Ranking a list of names that is already weakly sorted by key (with
fresh indices in increasing order) is the identity enumeration. -/
theorem rank_of_sorted_names (P : List String) (out : List (Nat × String))
    (hle : out.Pairwise (fun a b => sortKey P a ≤ sortKey P b)) :
    rank P (out.map Prod.snd) = (out.map Prod.snd).enum := by
  unfold rank
  apply List.mergeSort_of_sorted
  rw [enum_eq_enumFrom, enumFrom_map_pair Prod.snd out 0, List.pairwise_map]
  refine (pairwise_enumFrom_of_pairwise hle 0).imp ?_
  intro a b hab
  exact decide_eq_true (sortKey_le_shift P a.2.2 b.2.2 hab.2 hab.1)

/-! The claims. -/

/-- C1: for every list of pages and every priority list, the ranking
operation returns a permutation of the indexed input that is strictly
ascending in the key tuple (priority bucket, base name compared
lexicographically, extracted page number, original input index); in
particular any two pages equal on (bucket, base name, page number) appear
in the output in their original input order (ascending input index). -/
theorem ranking_orders_by_key_tuple (P : List String) (names : List String) :
    (rank P names).Perm names.enum ∧
    (rank P names).Pairwise (fun a b => sortKey P a < sortKey P b) ∧
    (rank P names).Pairwise (fun a b =>
      bucketOf P a.2 = bucketOf P b.2 → baseOf a.2 = baseOf b.2 →
        pageNumOf a.2 = pageNumOf b.2 → a.1 < b.1) := by
  refine ⟨rank_perm P names, rank_pairwise_lt P names, ?_⟩
  refine (rank_pairwise_lt P names).imp ?_
  intro a b hab hb hs hp
  simp only [sortKey, Prod.Lex.lt_iff] at hab
  rcases hab with h | ⟨_, h⟩
  · rw [hb] at h; exact absurd h (lt_irrefl _)
  · rcases h with h | ⟨_, h⟩
    · rw [hs] at h; exact absurd h (lt_irrefl _)
    · rcases h with h | ⟨_, h⟩
      · rw [hp] at h; exact absurd h (lt_irrefl _)
      · exact h

/-- C2 counterexample: the code's pattern `page\s*no\.?\s*(\d+)` requires
the literal `no`, so a name containing `Page 2` (without `No`) yields page
number 0, not 2. -/
theorem page_two_extracts_zero :
    pageNumOf "Dainik Bhaskar Page 2" = 0 ∧ pageNumOf "Dainik Bhaskar Page 2" ≠ 2 := by
  constructor
  · decide
  · decide

/-- C2 amended: the extracted page number is the integer captured by
matching, case-insensitively, `page`, optional whitespace, the literal
`no`, an optional `.`, optional whitespace, and one or more digits; if no
such match exists the page number is 0.  In particular `Page No. 2` yields
2 while `Page 2` (without `no`) yields 0. -/
theorem page_number_pattern_requires_no :
    (∀ ds : List Char, ds ≠ [] → (∀ c ∈ ds, isPyDigit c = true) →
      searchNum ('p' :: 'a' :: 'g' :: 'e' :: ' ' :: 'n' :: 'o' :: '.' :: ' ' :: ds)
        = some (digitsVal ds)) ∧
    pageNumOf "Dainik Bhaskar Page No. 2" = 2 ∧
    pageNumOf "DAINIK PAGE NO 7" = 7 ∧
    pageNumOf "PageNo3" = 3 ∧
    pageNumOf "page  no 15" = 15 ∧
    pageNumOf "Dainik Bhaskar Page 2" = 0 ∧
    pageNumOf "front cover" = 0 := by
  refine ⟨?_, by decide, by decide, by decide, by decide, by decide, by decide⟩
  intro ds hne hd
  simp only [searchNum, tryMatchAt_page_no_dot ds hne hd]

/-- Witness for the general clause of the amended C2 theorem, at the digit
string `4`. -/
theorem page_number_pattern_requires_no_witness :
    (['4'] : List Char) ≠ [] ∧
    searchNum ('p' :: 'a' :: 'g' :: 'e' :: ' ' :: 'n' :: 'o' :: '.' :: ' ' :: ['4'])
      = some (digitsVal ['4']) :=
  ⟨by decide, page_number_pattern_requires_no.1 ['4'] (by decide) (by decide)⟩

/-- C3: the worked example of the spec.  With the default priority list,
the three example pages come out as Dainik page 1, Dainik page 2, City
page 1 (here because the code's pattern does not match `Page N` without
`No`, the page-number components are all 0 and the base names, which keep
the page tokens, decide the order — the resulting sequence is the one the
spec states). -/
theorem ranking_example_default_priority :
    (rank DEFAULT_PRIORITY
        ["Dainik Bhaskar Page 2.jpg", "Dainik Bhaskar Page 1.jpg", "City Bhaskar Page 1.jpg"]).map
      Prod.snd
      = ["Dainik Bhaskar Page 1.jpg", "Dainik Bhaskar Page 2.jpg", "City Bhaskar Page 1.jpg"] := by
  have hcand : rank DEFAULT_PRIORITY
      ["Dainik Bhaskar Page 2.jpg", "Dainik Bhaskar Page 1.jpg", "City Bhaskar Page 1.jpg"]
      = [(1, "Dainik Bhaskar Page 1.jpg"), (0, "Dainik Bhaskar Page 2.jpg"),
         (2, "City Bhaskar Page 1.jpg")] := by
    apply @rank_eq_of_sorted DEFAULT_PRIORITY
    · refine (rank_perm _ _).trans ?_
      exact (List.Perm.swap (0, "Dainik Bhaskar Page 2.jpg") (1, "Dainik Bhaskar Page 1.jpg")
        [(2, "City Bhaskar Page 1.jpg")]).symm
    · exact rank_pairwise_lt _ _
    · decide
  rw [hcand]
  rfl

/-- C4: if both bounds are unset the image passes through unchanged;
otherwise a single uniform scale factor — the minimum of the ratios of the
set-and-exceeded bounds, never above 1 — is applied to both dimensions, so
scaling never increases either dimension. -/
theorem scaling_never_upscales (w h : Nat) (mw mh : Option Nat) :
    (mw = none → mh = none → scale_image w h mw mh = (w, h)) ∧
    specScaleFactor w h mw mh ≤ 1 ∧
    (scale_image w h mw mh).1 ≤ w ∧ (scale_image w h mw mh).2 ≤ h ∧
    (¬(mw = none ∧ mh = none) →
      scale_image w h mw mh
        = if specScaleFactor w h mw mh < 1
          then (⌊(w : ℚ) * specScaleFactor w h mw mh⌋₊,
                ⌊(h : ℚ) * specScaleFactor w h mw mh⌋₊)
          else (w, h)) := by
  refine ⟨?_, specScaleFactor_le_one w h mw mh, (scale_image_le w h mw mh).1,
    (scale_image_le w h mw mh).2, fun hne => scale_image_eq w h mw mh hne⟩
  intro h1 h2
  rw [scale_image, if_pos ⟨h1, h2⟩]

/-- Witness for C4 at the spec's example: max width 800, no max height,
a 1600 by 1000 image comes out as 800 by 500. -/
theorem scaling_never_upscales_witness :
    (¬((some 800 : Option Nat) = none ∧ (none : Option Nat) = none)) ∧
    scale_image 1600 1000 (some 800) none
      = (if specScaleFactor 1600 1000 (some 800) none < 1
         then (⌊(1600 : ℚ) * specScaleFactor 1600 1000 (some 800) none⌋₊,
               ⌊(1000 : ℚ) * specScaleFactor 1600 1000 (some 800) none⌋₊)
         else (1600, 1000)) ∧
    scale_image 1600 1000 (some 800) none = (800, 500) :=
  ⟨by simp, (scaling_never_upscales 1600 1000 (some 800) none).2.2.2.2 (by simp),
   by rw [scale_image, if_neg (by simp)]; norm_num [min_def]⟩

/-- C5: the render/assemble pass fails with the empty-batch error exactly
when no page decodes; otherwise it succeeds and the processed count is the
number of decodable pages (failed decodes are skipped, the rest continue;
the error type has no other constructor). -/
theorem render_empty_batch_iff (P : List String) (pages : List UPage)
    (al : Option String) (mw mh : Option Nat) (nl : Bool) :
    (generate_pdf P pages al mw mh nl = Except.error GenError.emptyBatch ↔
      ∀ p ∈ pages, p.decode = none) ∧
    (∀ out, generate_pdf P pages al mw mh nl = Except.ok out →
      out.2 = pages.countP (fun p => p.decode.isSome)) :=
  ⟨generate_pdf_eq_error_iff P pages al mw mh nl,
   fun out h => generate_pdf_ok_count P pages al mw mh nl out h⟩

/-- Witness for C5 on a one-page decodable batch: the run succeeds and the
count equals the number of decodable pages. -/
theorem render_empty_batch_iff_witness :
    (generate_pdf DEFAULT_PRIORITY [⟨"a", some (10, 10)⟩] none none none true
        = Except.error GenError.emptyBatch ↔
      ∀ p ∈ ([⟨"a", some (10, 10)⟩] : List UPage), p.decode = none) ∧
    ((([⟨10, 10, none⟩] : List PdfPage), 1).2
      = List.countP (fun p => p.decode.isSome) ([⟨"a", some (10, 10)⟩] : List UPage)) :=
  ⟨(render_empty_batch_iff DEFAULT_PRIORITY [⟨"a", some (10, 10)⟩] none none none true).1,
   (render_empty_batch_iff DEFAULT_PRIORITY [⟨"a", some (10, 10)⟩] none none none true).2
     ([⟨10, 10, none⟩], 1)
     (by simp [generate_pdf, processedOf, orderedOf, processPage, scale_image,
       enum_eq_enumFrom, List.enumFrom_cons])⟩

/-- C6 counterexample: a name matching no keyword gets bucket
`len(priority) + 1`, not `len(priority)` as the claim states. -/
theorem bucket_no_match_not_length :
    bucketOf DEFAULT_PRIORITY "times of india" ≠ DEFAULT_PRIORITY.length ∧
    bucketOf DEFAULT_PRIORITY "times of india" = DEFAULT_PRIORITY.length + 1 := by
  constructor
  · decide
  · decide

/-- C6 amended: a page matching no keyword gets bucket
`len(priority) + 1`, which is strictly larger than the bucket of any page
matching some keyword, so any matching page's key precedes it. -/
theorem bucket_no_match_ranks_last (P : List String) (n m : String) (i j : Nat)
    (hn : ∀ kw ∈ P, containsSub (lowerL kw.toList) (lowerL n.toList) = false)
    (hm : ∃ kw ∈ P, containsSub (lowerL kw.toList) (lowerL m.toList) = true) :
    bucketOf P n = P.length + 1 ∧
    bucketOf P m < bucketOf P n ∧
    sortKey P (i, m) < sortKey P (j, n) := by
  have h1 := bucketOf_no_match P n hn
  have h2 := bucketOf_match_le P m hm
  refine ⟨h1, by omega, ?_⟩
  simp only [sortKey, Prod.Lex.lt_iff]
  exact Or.inl (by omega)

/-- Witness for the amended C6 theorem with the default priority list. -/
theorem bucket_no_match_ranks_last_witness :
    bucketOf DEFAULT_PRIORITY "times of india" = DEFAULT_PRIORITY.length + 1 ∧
    sortKey DEFAULT_PRIORITY (7, "City Bhaskar Page No 3")
      < sortKey DEFAULT_PRIORITY (0, "times of india") :=
  ⟨(bucket_no_match_ranks_last DEFAULT_PRIORITY "times of india" "City Bhaskar Page No 3"
      7 0 (by decide) (by decide)).1,
   (bucket_no_match_ranks_last DEFAULT_PRIORITY "times of india" "City Bhaskar Page No 3"
      7 0 (by decide) (by decide)).2.2⟩

/-- C7 counterexample: with two `page no N` tokens, `PAGE_RE.sub` removes
both tokens from the base name; the later token does not remain. -/
theorem later_tokens_do_not_remain :
    pageNumOf "x Page No 1 Page No 2 y" = 1 ∧
    containsSub ("page no 2").toList (lowerL ("x Page No 1 Page No 2 y").toList) = true ∧
    baseOf "x Page No 1 Page No 2 y" = ("x   y").toList ∧
    containsSub ("page no 2").toList (baseOf "x Page No 1 Page No 2 y") = false := by
  refine ⟨by decide, by decide, by decide, by decide⟩

/-- C7 amended: for every display name, only the first match supplies the
extracted page number — as soon as the left-to-right scan reaches a match,
its captured integer is the final result of the search and later tokens
play no role — while the removal forming the base name deletes that match
and then continues removing matches in the remainder of the string, so
removal applies to every non-overlapping match, not only the first.  The
first two clauses characterise every scan step of `searchNum` (number
extraction) and `subAll` (removal) on all names; the remaining clauses
instantiate them on names with two page-number tokens, where the second
token is also removed from the base name. -/
theorem first_match_number_all_matches_removed :
    (∀ (c : Char) (rest rem : List Char) (n : Nat),
      tryMatchAt (c :: rest) = some (rem, n) →
        searchNum (c :: rest) = some n ∧ subAll (c :: rest) = subAll rem) ∧
    (∀ (c : Char) (rest : List Char),
      tryMatchAt (c :: rest) = none →
        searchNum (c :: rest) = searchNum rest ∧ subAll (c :: rest) = c :: subAll rest) ∧
    pageNumOf "Dainik Bhaskar Page No 1 Page No 2" = 1 ∧
    baseOf "Dainik Bhaskar Page No 1 Page No 2" = ("dainik bhaskar").toList ∧
    pageNumOf "a Page No 9 b Page No 4" = 9 ∧
    baseOf "a Page No 9 b Page No 4" = ("a  b").toList := by
  refine ⟨?_, ?_, by decide, by decide, by decide, by decide⟩
  · intro c rest rem n h
    constructor
    · simp only [searchNum, h]
    · exact subAll_cons_of_match h
  · intro c rest h
    constructor
    · simp only [searchNum, h]
    · exact subAll_cons_of_no_match h

/-- Witness for the universal clauses of the amended C7 theorem: at the
name `page no 1 page no 2` the scan is at a match capturing 1 and removal
continues in the remainder (which still holds the second token); at
`x page no 5` the scan is not at a match and moves on. -/
theorem first_match_number_all_matches_removed_witness :
    (searchNum ('p' :: ("age no 1 page no 2").toList) = some 1 ∧
      subAll ('p' :: ("age no 1 page no 2").toList) = subAll ((" page no 2").toList)) ∧
    (searchNum ('x' :: (" page no 5").toList) = searchNum ((" page no 5").toList) ∧
      subAll ('x' :: (" page no 5").toList) = 'x' :: subAll ((" page no 5").toList)) :=
  ⟨first_match_number_all_matches_removed.1 'p' ("age no 1 page no 2").toList
      ((" page no 2").toList) 1 (by decide),
   first_match_number_all_matches_removed.2.1 'x' ((" page no 5").toList) (by decide)⟩

/-- C8: with labelling enabled, the label text is the override when it is
provided and non-empty, and otherwise the page's own display name; an
empty-string override is normalised away at the boundary and never becomes
the label. -/
theorem label_override_choice (s d : String) (dims : Nat × Nat)
    (mw mh : Option Nat) (al : Option String) (hs : s ≠ "") :
    chooseLabel (normalizeAllLabel (some s)) d = s ∧
    chooseLabel (normalizeAllLabel (some "")) d = d ∧
    chooseLabel (normalizeAllLabel none) d = d ∧
    (processPage (normalizeAllLabel al) mw mh false d dims).label
      = some (chooseLabel (normalizeAllLabel al) d) := by
  refine ⟨?_, rfl, rfl, ?_⟩
  · simp [normalizeAllLabel, chooseLabel, hs]
  · simp [processPage]

/-- Witness for C8 with a non-empty override. -/
theorem label_override_choice_witness :
    ("Front Page" : String) ≠ "" ∧
    chooseLabel (normalizeAllLabel (some "Front Page")) "scan1" = "Front Page" :=
  ⟨by decide,
   (label_override_choice "Front Page" "scan1" (3, 4) none none none (by decide)).1⟩

/-- C9: ranking is deterministic (it is a function of its inputs) and
idempotent: ranking the ranked name sequence, with indices reassigned by
the new positions, is the identity enumeration, so the name sequence is
unchanged. -/
theorem ranking_idempotent (P : List String) (ns : List String) :
    rank P ((rank P ns).map Prod.snd) = ((rank P ns).map Prod.snd).enum ∧
    (rank P ((rank P ns).map Prod.snd)).map Prod.snd = (rank P ns).map Prod.snd := by
  have h := rank_of_sorted_names P (rank P ns) (rank_pairwise_le P ns)
  refine ⟨h, ?_⟩
  rw [h, enum_eq_enumFrom]
  exact List.enumFrom_map_snd 0 _

/-- C10: an empty page list produces the same empty-batch failure as a
batch in which every decode fails, and no output value. -/
theorem empty_input_same_as_all_failed (P : List String) (al : Option String)
    (mw mh : Option Nat) (nl : Bool) :
    generate_pdf P [] al mw mh nl = Except.error GenError.emptyBatch ∧
    (∀ pages : List UPage, (∀ p ∈ pages, p.decode = none) →
      generate_pdf P pages al mw mh nl = Except.error GenError.emptyBatch) := by
  constructor
  · exact (generate_pdf_eq_error_iff P [] al mw mh nl).mpr (by intro p hp; cases hp)
  · intro pages h
    exact (generate_pdf_eq_error_iff P pages al mw mh nl).mpr h

/-- Witness for C10 on a one-page batch whose decode fails. -/
theorem empty_input_same_as_all_failed_witness :
    generate_pdf DEFAULT_PRIORITY [⟨"x", none⟩] none none none false
      = Except.error GenError.emptyBatch :=
  (empty_input_same_as_all_failed DEFAULT_PRIORITY none none none false).2
    [⟨"x", none⟩] (by decide)

end NewspaperPdf
